import Mathlib

/-!
Verification development for the aw-man manga viewer.

Shallow embedding of the parts of the source relevant to the checked
properties: the internal natural sorter (internal/natsort/natsort.go), the
neighbor-archive ordering (internal/manager/dir-helpers.go), the page-index
cursor arithmetic (internal/manager/page_indices.go), page navigation
(moveNPages), the loadable-image state machine
(internal/manager/loadable-image.go), page upscale clearing and temp-file
removal (internal/manager/page.go), and the archive extractor channel
protocol (openArchive and archiverExtractor).

Machine integers are modelled as Int (no arithmetic here comes close to
overflow), Go strings as List Char (UTF-8 byte order coincides with code
point order, so Go string comparison is lexicographic Char comparison),
Go float64 values as exact rationals where noted, and fallible or panicking
code as Option.  Loops are embedded either structurally or with a fuel
argument that is always provided in excess of the loop bound, keeping every
definition kernel-computable.
-/

namespace AwMan

/-- Lexicographic comparison of char lists; models the Go string less-than
operator (UTF-8 byte order equals code point order). -/
def listLt : List Char → List Char → Bool
  | [], [] => false
  | [], _ :: _ => true
  | _ :: _, [] => false
  | x :: xs, y :: ys => if x = y then listLt xs ys else decide (x < y)

/-- Numeric value of a list of decimal digit characters. -/
def digitsVal (ds : List Char) : Nat :=
  ds.foldl (fun acc c => acc * 10 + (c.toNat - 48)) 0

/-- Models Go strings.ToLower on the code points exercised in this
development: ASCII letters map to lower case (Char.toLower) and the Kelvin
sign U+212A maps to the letter k, which is its Unicode lower-case mapping.
Other code points appearing in the checked inputs are unaffected by
strings.ToLower. -/
def goToLower (c : Char) : Char :=
  if c.toNat = 0x212A then 'k' else c.toLower

/-! ## Internal natural sorter, internal/natsort/natsort.go

A parsed string alternates string segments and float segments; the float
array is as long as the string array or one shorter.  Go float64 parsing of
the digit groups is modelled by the exact rational value of the decimal
literal; on every comparison performed in this development the two decimal
values are short enough that rounding to float64 preserves their order, so
the rational model decides exactly as the Go code does. -/

/-- Exact value of a decimal literal: num / 10 ^ scale.  This models the
float64 produced by strconv.ParseFloat on the digit groups cut out by the
natural sorter: on every comparison performed in this development the two
decimal values are short enough that rounding to float64 preserves their
order and their equality, so the exact model decides as the Go code does. -/
structure DecFloat where
  num : Nat
  scale : Nat
deriving DecidableEq

/-- Equality of the represented rationals. -/
def decFloatEq (x y : DecFloat) : Bool :=
  decide (x.num * 10 ^ y.scale = y.num * 10 ^ x.scale)

/-- Strict order on the represented rationals. -/
def decFloatLt (x y : DecFloat) : Bool :=
  decide (x.num * 10 ^ y.scale < y.num * 10 ^ x.scale)

structure ParsedString where
  stringSegments : List (List Char)
  floatSegments : List DecFloat
deriving DecidableEq

/-- Value of the regex group (digits with an optional fractional part). -/
def ratOfDigits (intPart fracPart : List Char) : DecFloat :=
  ⟨digitsVal (intPart ++ fracPart), fracPart.length⟩

/-- One pass of the FindAllStringSubmatch loop over the regex
(non-digits)(digits(.digits)?), natsort.go parseString lines 67-89.
Each match consumes the leading non-digit run, a digit run and optionally a
dot followed by a digit run; the final remainder (holding no further match)
is appended as a last string segment.  The fuel argument strictly exceeds
the number of matches (each match consumes at least one character), so the
zero-fuel branch is never taken. -/
def parseSegs : Nat → List Char → List (List Char) × List DecFloat
  | 0, s => ([s], [])
  | fuel + 1, s =>
    let lead := s.takeWhile fun c => !c.isDigit
    let rest := s.dropWhile fun c => !c.isDigit
    if rest.isEmpty then ([s], [])
    else
      let digits := rest.takeWhile Char.isDigit
      let afterInt := rest.drop digits.length
      let step : List Char × List Char :=
        match afterInt with
        | '.' :: a1 =>
          let f := a1.takeWhile Char.isDigit
          if f.isEmpty then ([], afterInt) else (f, a1.drop f.length)
        | _ => ([], afterInt)
      let res := parseSegs fuel step.2
      (lead :: res.1, ratOfDigits digits step.1 :: res.2)

/-- natsort.go parseString: lower-case the input, then split it. -/
def parseString (s : List Char) : ParsedString :=
  let lowered := s.map goToLower
  let res := parseSegs (lowered.length + 1) lowered
  ⟨res.1, res.2⟩

/-- The loop body of natsort.go compare (lines 19-49), from index i with
the invariant that i is below the segment count of a.  The fuel strictly
exceeds the remaining iteration count. -/
def cmpFrom (a b : ParsedString) : Nat → Nat → Bool
  | 0, _ => false
  | fuel + 1, i =>
    if i ≥ b.stringSegments.length then false
    else if a.stringSegments.getD i [] ≠ b.stringSegments.getD i [] then
      listLt (a.stringSegments.getD i []) (b.stringSegments.getD i [])
    else if i = a.floatSegments.length then
      decide (i ≠ b.floatSegments.length)
    else if i = b.floatSegments.length then false
    else if !decFloatEq (a.floatSegments.getD i ⟨0, 0⟩) (b.floatSegments.getD i ⟨0, 0⟩) then
      decFloatLt (a.floatSegments.getD i ⟨0, 0⟩) (b.floatSegments.getD i ⟨0, 0⟩)
    else if i + 1 < a.stringSegments.length then cmpFrom a b fuel (i + 1)
    else decide (b.stringSegments.length > i + 1)

/-- natsort.go compare.  When the segment list of a is empty the Go loop
never runs and the index variable keeps its initial value zero. -/
def comparePS (a b : ParsedString) : Bool :=
  if a.stringSegments.isEmpty then decide (b.stringSegments.length > 1)
  else cmpFrom a b a.stringSegments.length 0

/-- NaturalSorter.Compare, natsort.go lines 92-104.  The memoization map of
the Go receiver caches parseString results and never changes the value
computed, so Compare is the comparison of the two parses. -/
def natsortCompare (a b : String) : Bool :=
  comparePS (parseString a.data) (parseString b.data)

/-! ## Neighbor-archive ordering, internal/manager/dir-helpers.go

lessThan first tries mangaSyncerFileRegex and otherwise falls back to the
third-party sorter github.com/facette/natsort (the import at the top of
dir-helpers.go), which chunks a string into maximal digit and non-digit
runs and compares run-wise with integer comparison on digit runs. -/

/-- Splits a string into maximal runs of digits and of non-digits; models
the facette/natsort chunking regex (digits|non-digits) applied with
FindAllString.  Fuel strictly exceeding the input length is always enough
since every run is non-empty. -/
def chunkify : Nat → List Char → List (List Char)
  | 0, _ => []
  | _, [] => []
  | fuel + 1, c :: cs =>
    let run := (c :: cs).takeWhile fun x => x.isDigit = c.isDigit
    run :: chunkify fuel ((c :: cs).drop run.length)

/-- Models strconv.Atoi: succeeds on a non-empty all-digit string whose
value fits in a signed 64-bit int (the sign cases cannot arise on chunks,
because a sign character always lands in a non-digit chunk). -/
def goAtoi (s : List Char) : Option Int :=
  if s ≠ [] ∧ s.all Char.isDigit ∧ digitsVal s < 2 ^ 63 then
    some (digitsVal s)
  else none

/-- Loop of facette/natsort Compare over the two chunk lists: stop with
false when the second list is exhausted first; on the first differing pair
compare as integers when both parse, else as strings; if the first list is
exhausted, it precedes exactly when it is strictly shorter. -/
def fcLoop : List (List Char) → List (List Char) → Bool
  | [], ys => decide (ys ≠ [])
  | _ :: _, [] => false
  | x :: xs, y :: ys =>
    if x ≠ y then
      match goAtoi x, goAtoi y with
      | some xi, some yi => decide (xi < yi)
      | _, _ => listLt x y
    else fcLoop xs ys

/-- facette/natsort Compare (the external natural sorter used by
dir-helpers.go). -/
def facetteCompare (a b : List Char) : Bool :=
  fcLoop (chunkify (a.length + 1) a) (chunkify (b.length + 1) b)

/-! mangaSyncerFileRegex is the pattern

    $(Vol\. [^ ]+)?Ch\. ([^ ]+).* - [a-zA-Z_-]+\.zip

Note the leading anchor is the end-of-text anchor (a dollar, not a caret):
in Go regexp without the multi-line flag it matches only at the end of the
text, so the rest of the pattern would have to consume characters after the
end of the string.  We embed one match attempt at a start position and the
leftmost search over all start positions. -/

/-- Consume a literal prefix, or fail. -/
def eatLit : List Char → List Char → Option (List Char)
  | [], t => some t
  | _ :: _, [] => none
  | l :: ls, t :: ts => if l = t then eatLit ls ts else none

/-- All decompositions t = pre ++ suf with pre non-empty, longest pre
first (the greedy order). -/
def splitsNE (t : List Char) : List (List Char × List Char) :=
  ((List.range t.length).map fun k => (t.take (t.length - k), t.drop (t.length - k)))

/-- The part of the pattern after the capture of group two:
.* - [a-zA-Z_-]+\.zip  (existence only; the checked property is that no
match exists at all). -/
def msTailRest (t : List Char) : Bool :=
  (splitsNE t ++ [([], t)]).any fun pr =>
    match eatLit [' ', '-', ' '] pr.2 with
    | none => false
    | some u =>
      (splitsNE u).any fun qr =>
        qr.1.all (fun c => c.isAlpha ∨ c = '_' ∨ c = '-') &&
        (eatLit ['.', 'z', 'i', 'p'] qr.2).isSome

/-- Models strconv.ParseFloat restricted to plain decimal literals
digits(.digits)?; the only consumer of this definition is the provably
unreachable regex branch of lessThanNames, so the exotic float syntaxes
(signs, exponents, inf, nan, hexadecimal) are irrelevant to every theorem
below. -/
def goParseFloatDec (s : List Char) : Option DecFloat :=
  let ip := s.takeWhile Char.isDigit
  match s.drop ip.length with
  | [] => if ip = [] then none else some ⟨digitsVal ip, 0⟩
  | '.' :: fs =>
    if ip ≠ [] ∧ fs ≠ [] ∧ fs.all Char.isDigit then
      some ⟨digitsVal (ip ++ fs), fs.length⟩
    else none
  | _ => none

/-- Group two and the rest: Ch\. ([^ ]+) followed by msTailRest. -/
def msChPart (t : List Char) : Option (List Char) :=
  match eatLit ['C', 'h', '.', ' '] t with
  | none => none
  | some u =>
    ((splitsNE u).filter fun pr =>
        pr.1.all (fun c => c ≠ ' ') && msTailRest pr.2).head?.map Prod.fst

/-- One attempt of the full pattern starting at position i of s.  The
leading dollar anchor succeeds only when i is the end of the text, and the
remainder of the pattern must then match from there. -/
def msMatchAt (s : List Char) (i : Nat) : Option (List Char) :=
  if i = s.length then
    let t := s.drop i
    match (do
        let u ← eatLit ['V', 'o', 'l', '.', ' '] t
        ((splitsNE u).filter fun (pr : List Char × List Char) =>
            pr.1.all (fun c => c ≠ ' ') && (msChPart pr.2).isSome).head?) with
    | some pr => msChPart pr.2
    | none => msChPart t
  else none

/-- First success of f over a list of candidate positions. -/
def firstSome (f : Nat → Option (List Char)) : List Nat → Option (List Char)
  | [] => none
  | x :: xs =>
    match f x with
    | some r => some r
    | none => firstSome f xs

/-- Leftmost match search of mangaSyncerFileRegex over a string, returning
the group-two capture; models FindStringSubmatch. -/
def msFind (s : List Char) : Option (List Char) :=
  firstSome (msMatchAt s) (List.range (s.length + 1))

/-- dir-helpers.go lessThan (lines 35-60).  The mangaSyncer branch parses
the two group-two captures with ParseFloat, and only compares them when
both parses FAILED (the error checks in the source compare against nil with
the inverted operator); the NaN checks are always true because a comparison
of NaN with itself is never equal.  The branch is modelled faithfully but
is provably dead: msFind never produces a match. -/
def lessThanNames (a b : List Char) : Bool :=
  if a = b then false
  else
    match msFind a, msFind b with
    | some ma, some mb =>
      let pa := goParseFloatDec ma
      let pb := goParseFloatDec mb
      if pa.isNone ∧ pb.isNone then
        let ca := pa.getD ⟨0, 0⟩
        let cb := pb.getD ⟨0, 0⟩
        if decFloatLt ca cb then true
        else if decFloatLt ca cb then false
        else facetteCompare a b
      else facetteCompare a b
    | _, _ => facetteCompare a b

/-- Lower-cased file extension beginning at the final dot, as
strings.ToLower of filepath.Ext. -/
def extLower (name : List Char) : List Char :=
  let revTail := name.reverse.takeWhile fun c => c ≠ '.'
  if revTail.length = name.length then []
  else ('.' :: revTail.reverse).map goToLower

/-- dir-helpers.go findBeforeAndAfterInDir (lines 63-102) over a directory
listing given as (name, isDirectory) pairs in ReadDir order: skip
directories, the file itself and non-archive extensions, then keep the
greatest name below the file and the least name above it. -/
def findBeforeAndAfterInDir (file : List Char) (entries : List (List Char × Bool)) :
    List Char × List Char :=
  entries.foldl
    (fun acc e =>
      let (before, after) := acc
      if e.2 ∨ e.1 = file then acc
      else if ¬(extLower e.1 ∈ [".zip".data, ".rar".data, ".cbz".data, ".cbr".data, ".7z".data])
        then acc
      else if lessThanNames e.1 file then
        if before = [] ∨ lessThanNames before e.1 then (e.1, after) else acc
      else
        if after = [] ∨ lessThanNames e.1 after then (before, e.1) else acc)
    ([], [])

/-! ## Page index cursor arithmetic, internal/manager/page_indices.go

The manager state entering add is abstracted to the list of page counts of
the open archives, which is the only data the function reads.  The archive
component is a Nat (the Go int never goes below zero: the backward loop is
guarded by it being positive) and the page component an Int. -/

structure PageIndices where
  a : Nat
  p : Int
deriving DecidableEq

/-- PageCount of archive i, with indexing as in the Go slice access (the
loops of add keep the index in bounds whenever the starting index is; the
default is never consulted on those paths). -/
def pageCount (counts : List Nat) (i : Nat) : Int :=
  (counts.getD i 0 : Int)

/-- The first loop of add (page_indices.go lines 37-44): while the archive
is not the last one and the page lies at or past its page count and is
positive, step into the next archive; an empty archive consumes one extra
slot.  The loop runs at most length-many times, so the fuel passed by
addPI never runs out. -/
def addFwd (counts : List Nat) : Nat → Nat → Int → Nat × Int
  | 0, a, p => (a, p)
  | fuel + 1, a, p =>
    if a + 1 < counts.length ∧ pageCount counts a ≤ p ∧ 0 < p then
      let pc := pageCount counts a
      addFwd counts fuel (a + 1) ((if pc = 0 then p - 1 else p) - pc)
    else (a, p)

/-- The second loop of add (lines 46-53): while the archive is positive and
the page negative, step into the previous archive.  Structural on the
archive index, exactly as the Go loop decrements it. -/
def addBwd (counts : List Nat) : Nat → Int → Nat × Int
  | 0, p => (0, p)
  | a + 1, p =>
    if p < 0 then
      let pc := pageCount counts a
      addBwd counts a ((if pc = 0 then p + 1 else p) + pc)
    else (a + 1, p)

/-- manager.add (page_indices.go lines 35-56): translate the cursor by x
pages and report whether the result denotes a page of the open archives. -/
def addPI (counts : List Nat) (pi : PageIndices) (x : Int) : PageIndices × Bool :=
  let r1 := addFwd counts counts.length pi.a (pi.p + x)
  let r2 := addBwd counts r1.1 r1.2
  (⟨r2.1, r2.2⟩, decide (0 ≤ r2.2 ∧ (r2.2 = 0 ∨ r2.2 < pageCount counts r2.1)))

/-- A cursor whose flag add would report true and whose archive component
is in bounds: the denotation of a page slot, where an empty archive holds
the single virtual slot zero. -/
def validCursor (counts : List Nat) (pi : PageIndices) : Prop :=
  pi.a < counts.length ∧ 0 ≤ pi.p ∧ (pi.p = 0 ∨ pi.p < pageCount counts pi.a)

instance (counts : List Nat) (pi : PageIndices) : Decidable (validCursor counts pi) := by
  unfold validCursor; infer_instance

/-- Width of an archive in the linearised slot space: its page count, or
one virtual slot when empty. -/
def slotWidth (c : Nat) : Nat := max c 1

/-- Number of slots strictly before archive a. -/
def prefW (counts : List Nat) : Nat → Nat
  | 0 => 0
  | a + 1 =>
    match counts with
    | [] => 0
    | c :: cs => slotWidth c + prefW cs a

/-- Total number of slots. -/
def totalW (counts : List Nat) : Nat := prefW counts counts.length

/-- Linear position of a cursor. -/
def posOf (counts : List Nat) (pi : PageIndices) : Int :=
  (prefW counts pi.a : Int) + pi.p

lemma prefW_succ (counts : List Nat) (a : Nat) (ha : a < counts.length) :
    prefW counts (a + 1) = prefW counts a + slotWidth (counts.getD a 0) := by
  induction a generalizing counts with
  | zero =>
    cases counts with
    | nil => simp at ha
    | cons c cs => simp [prefW]
  | succ a ih =>
    cases counts with
    | nil => simp at ha
    | cons c cs =>
      have := ih cs (by simpa using Nat.lt_of_succ_lt_succ ha)
      simp [prefW, this]
      omega

lemma prefW_mono (counts : List Nat) {a b : Nat} (hab : a ≤ b) :
    prefW counts a ≤ prefW counts b := by
  induction b with
  | zero => simp [Nat.le_zero.mp hab]
  | succ b ih =>
    rcases Nat.lt_or_ge a (b + 1) with h | h
    · rcases Nat.lt_or_ge b counts.length with hb | hb
      · have := prefW_succ counts b hb
        have := ih (Nat.lt_succ_iff.mp h)
        omega
      · have hs : prefW counts (b + 1) = prefW counts b := by
          clear ih h hab
          induction b generalizing counts with
          | zero => cases counts with
            | nil => simp [prefW]
            | cons c cs => simp at hb
          | succ b ih =>
            cases counts with
            | nil => simp [prefW]
            | cons c cs =>
              have := ih cs (by simp at hb; omega)
              simp [prefW, this]
        have := ih (Nat.lt_succ_iff.mp h)
        omega
    · have : a = b + 1 := le_antisymm hab h
      simp [this]

/-- A cursor is valid exactly when it is in bounds and its page component
lies below the slot width of its archive. -/
lemma valid_iff_width (counts : List Nat) (pi : PageIndices) :
    validCursor counts pi ↔
      pi.a < counts.length ∧ 0 ≤ pi.p ∧ pi.p < (slotWidth (counts.getD pi.a 0) : Int) := by
  unfold validCursor slotWidth pageCount
  rcases pi with ⟨a, p⟩
  dsimp only
  cases hc : counts.getD a 0 with
  | zero => push_cast; omega
  | succ k =>
    have : max (k + 1) 1 = k + 1 := by omega
    rw [this]
    push_cast
    omega

lemma valid_pos_lt_total (counts : List Nat) (pi : PageIndices)
    (h : validCursor counts pi) :
    0 ≤ posOf counts pi ∧ posOf counts pi < (totalW counts : Int) := by
  rcases (valid_iff_width counts pi).mp h with ⟨h1, h2, h3⟩
  have hs := prefW_succ counts pi.a h1
  have hm := prefW_mono counts (Nat.succ_le_of_lt h1)
  unfold posOf totalW
  constructor
  · positivity
  · have : (prefW counts pi.a : Int) + pi.p
        < (prefW counts pi.a : Int) + slotWidth (counts.getD pi.a 0) := by omega
    calc (prefW counts pi.a : Int) + pi.p
        < (prefW counts (pi.a + 1) : Int) := by rw [hs]; push_cast; omega
      _ ≤ (prefW counts counts.length : Int) := by exact_mod_cast hm

/-- Valid cursors occupy distinct linear positions. -/
lemma valid_pos_inj (counts : List Nat) (x y : PageIndices)
    (hx : validCursor counts x) (hy : validCursor counts y)
    (hpos : posOf counts x = posOf counts y) : x = y := by
  rcases (valid_iff_width counts x).mp hx with ⟨hx1, hx2, hx3⟩
  rcases (valid_iff_width counts y).mp hy with ⟨hy1, hy2, hy3⟩
  have key : ∀ u v : PageIndices, u.a < v.a →
      validCursor counts u → validCursor counts v →
      posOf counts u < posOf counts v := by
    intro u v huv hu hv
    rcases (valid_iff_width counts u).mp hu with ⟨h1, h2, h3⟩
    rcases (valid_iff_width counts v).mp hv with ⟨g1, g2, g3⟩
    have hs := prefW_succ counts u.a h1
    have hm := prefW_mono counts (Nat.succ_le_of_lt huv)
    unfold posOf
    have : (prefW counts (u.a + 1) : Int) ≤ (prefW counts v.a : Int) := by exact_mod_cast hm
    omega
  rcases Nat.lt_trichotomy x.a y.a with h | h | h
  · exact absurd hpos (ne_of_lt (key x y h hx hy))
  · rcases x with ⟨xa, xp⟩; rcases y with ⟨ya, yp⟩
    simp only at h
    subst h
    unfold posOf at hpos
    simp at hpos
    simp [hpos]
  · exact absurd hpos.symm (ne_of_lt (key y x h hy hx))

lemma addFwd_neg (counts : List Nat) (fuel a : Nat) {p : Int} (hp : p < 0) :
    addFwd counts fuel a p = (a, p) := by
  cases fuel with
  | zero => rfl
  | succ f =>
    unfold addFwd
    rw [if_neg]
    rintro ⟨-, -, h⟩
    omega

lemma addFwd_invariant (counts : List Nat) :
    ∀ fuel a (p : Int), a < counts.length →
      (addFwd counts fuel a p).1 < counts.length ∧
      (prefW counts (addFwd counts fuel a p).1 : Int) + (addFwd counts fuel a p).2
        = (prefW counts a : Int) + p := by
  intro fuel
  induction fuel with
  | zero => intro a p ha; exact ⟨ha, rfl⟩
  | succ f ih =>
    intro a p ha
    unfold addFwd
    split
    · next h =>
      obtain ⟨h1, h2, h3⟩ := h
      have step := ih (a + 1) ((if pageCount counts a = 0 then p - 1 else p) - pageCount counts a) h1
      refine ⟨step.1, ?_⟩
      rw [step.2]
      have hs := prefW_succ counts a (by omega)
      unfold pageCount slotWidth at *
      split <;> push_cast [hs] at * <;> omega
    · exact ⟨ha, rfl⟩

lemma addFwd_canon (counts : List Nat) :
    ∀ fuel a (p : Int), a < counts.length → 0 ≤ p →
      (prefW counts a : Int) + p < (totalW counts : Int) →
      counts.length ≤ fuel + a + 1 →
      validCursor counts ⟨(addFwd counts fuel a p).1, (addFwd counts fuel a p).2⟩ := by
  intro fuel
  induction fuel with
  | zero =>
    intro a p ha hp hpos hfuel
    rw [valid_iff_width]
    refine ⟨ha, hp, ?_⟩
    have haeq : a + 1 = counts.length := by omega
    have hs := prefW_succ counts a ha
    unfold totalW at hpos
    rw [← haeq] at hpos
    simp only [addFwd]
    push_cast [hs] at hpos ⊢
    omega
  | succ f ih =>
    intro a p ha hp hpos hfuel
    unfold addFwd
    split
    · next h =>
      obtain ⟨h1, h2, h3⟩ := h
      have hnext : 0 ≤ (if pageCount counts a = 0 then p - 1 else p) - pageCount counts a := by
        unfold pageCount at *
        split <;> omega
      have hposnext : (prefW counts (a + 1) : Int)
          + ((if pageCount counts a = 0 then p - 1 else p) - pageCount counts a)
          = (prefW counts a : Int) + p := by
        have hs := prefW_succ counts a (by omega)
        unfold pageCount slotWidth at *
        split <;> push_cast [hs] at * <;> omega
      exact ih (a + 1) _ h1 hnext (by rw [hposnext]; exact hpos) (by omega)
    · next h =>
      rw [valid_iff_width]
      refine ⟨ha, hp, ?_⟩
      push_neg at h
      rcases Nat.lt_or_ge (a + 1) counts.length with hlt | hge
      · rcases lt_or_ge p (pageCount counts a) with hppc | hppc
        · unfold pageCount slotWidth at *
          simp only [addFwd]
          omega
        · have := h hlt hppc
          simp only [addFwd]
          unfold slotWidth
          omega
      · have haeq : a + 1 = counts.length := by omega
        have hs := prefW_succ counts a ha
        unfold totalW at hpos
        rw [← haeq] at hpos
        simp only [addFwd]
        push_cast [hs] at hpos ⊢
        omega

lemma addBwd_nonneg (counts : List Nat) (a : Nat) {p : Int} (hp : 0 ≤ p) :
    addBwd counts a p = (a, p) := by
  cases a with
  | zero => rfl
  | succ a =>
    unfold addBwd
    rw [if_neg]
    omega

lemma addBwd_invariant (counts : List Nat) :
    ∀ a (p : Int), a < counts.length →
      (addBwd counts a p).1 < counts.length ∧
      (prefW counts (addBwd counts a p).1 : Int) + (addBwd counts a p).2
        = (prefW counts a : Int) + p := by
  intro a
  induction a with
  | zero => intro p ha; exact ⟨ha, rfl⟩
  | succ a ih =>
    intro p ha
    unfold addBwd
    split
    · next h =>
      have step := ih ((if pageCount counts a = 0 then p + 1 else p) + pageCount counts a)
        (by omega)
      refine ⟨step.1, ?_⟩
      rw [step.2]
      have hs := prefW_succ counts a (by omega)
      unfold pageCount slotWidth at *
      split <;> push_cast [hs] at * <;> omega
    · exact ⟨ha, rfl⟩

lemma addBwd_canon (counts : List Nat) :
    ∀ a (p : Int), a < counts.length →
      0 ≤ (prefW counts a : Int) + p →
      (0 ≤ p → p < (slotWidth (counts.getD a 0) : Int)) →
      validCursor counts ⟨(addBwd counts a p).1, (addBwd counts a p).2⟩ := by
  intro a
  induction a with
  | zero =>
    intro p ha hpos hw
    rw [valid_iff_width]
    simp only [prefW, Nat.cast_zero, zero_add] at hpos
    exact ⟨ha, hpos, by simpa using hw hpos⟩
  | succ a ih =>
    intro p ha hpos hw
    unfold addBwd
    split
    · next h =>
      have hs := prefW_succ counts a (by omega)
      refine ih _ (by omega) ?_ ?_
      · unfold pageCount slotWidth at *
        split <;> push_cast [hs] at * <;> omega
      · intro _
        unfold pageCount slotWidth at *
        split <;> push_cast [hs] at * <;> omega
    · next h =>
      rw [valid_iff_width]
      push_neg at h
      exact ⟨ha, h, by simpa using hw h⟩

/-- Unfolded form of add as the composition of its two loops. -/
lemma addPI_def (counts : List Nat) (pi : PageIndices) (x : Int) :
    addPI counts pi x =
      (⟨(addBwd counts (addFwd counts counts.length pi.a (pi.p + x)).1
            (addFwd counts counts.length pi.a (pi.p + x)).2).1,
        (addBwd counts (addFwd counts counts.length pi.a (pi.p + x)).1
            (addFwd counts counts.length pi.a (pi.p + x)).2).2⟩,
       decide (0 ≤ (addBwd counts (addFwd counts counts.length pi.a (pi.p + x)).1
            (addFwd counts counts.length pi.a (pi.p + x)).2).2 ∧
         ((addBwd counts (addFwd counts counts.length pi.a (pi.p + x)).1
            (addFwd counts counts.length pi.a (pi.p + x)).2).2 = 0 ∨
          (addBwd counts (addFwd counts counts.length pi.a (pi.p + x)).1
            (addFwd counts counts.length pi.a (pi.p + x)).2).2 <
            pageCount counts (addBwd counts
              (addFwd counts counts.length pi.a (pi.p + x)).1
              (addFwd counts counts.length pi.a (pi.p + x)).2).1))) := rfl

/-- Full characterisation of add on any in-range target position: the
result is a valid cursor at that position and the flag is true. -/
lemma addPI_inrange (counts : List Nat) (pi : PageIndices) (n : Int)
    (ha : pi.a < counts.length)
    (h0 : 0 ≤ posOf counts pi + n)
    (h1 : posOf counts pi + n < (totalW counts : Int)) :
    validCursor counts (addPI counts pi n).1 ∧
    posOf counts (addPI counts pi n).1 = posOf counts pi + n ∧
    (addPI counts pi n).2 = true := by
  unfold posOf at h0 h1
  rw [addPI_def]
  rcases lt_or_ge (pi.p + n) 0 with hneg | hnn
  · rw [addFwd_neg counts counts.length pi.a hneg]
    have hv := addBwd_canon counts pi.a (pi.p + n) ha (by omega) (by omega)
    have hinv := addBwd_invariant counts pi.a (pi.p + n) ha
    rcases (valid_iff_width counts _).mp hv with ⟨g1, g2, g3⟩
    dsimp only at g1 g2 g3
    refine ⟨hv, by unfold posOf; dsimp only; omega, ?_⟩
    have hvv := hv
    unfold validCursor at hvv
    dsimp only at hvv
    simp only [decide_eq_true_eq]
    exact ⟨hvv.2.1, hvv.2.2⟩
  · have hF := addFwd_canon counts counts.length pi.a (pi.p + n) ha hnn (by omega)
      (by omega)
    have hinv := addFwd_invariant counts counts.length pi.a (pi.p + n) ha
    rcases (valid_iff_width counts _).mp hF with ⟨g1, g2, g3⟩
    dsimp only at g1 g2 g3
    rw [addBwd_nonneg counts _ g2]
    have hvv := hF
    unfold validCursor at hvv
    dsimp only at hvv
    refine ⟨hF, by unfold posOf; dsimp only; omega, ?_⟩
    simp only [decide_eq_true_eq]
    exact ⟨hvv.2.1, hvv.2.2⟩

/-- add preserves the linear position and keeps the archive component in
bounds, and its flag holds exactly when the result is a valid cursor. -/
lemma addPI_spec (counts : List Nat) (pi : PageIndices) (n : Int)
    (ha : pi.a < counts.length) :
    (addPI counts pi n).1.a < counts.length ∧
    posOf counts (addPI counts pi n).1 = posOf counts pi + n ∧
    ((addPI counts pi n).2 = true ↔ validCursor counts (addPI counts pi n).1) := by
  rw [addPI_def]
  have hf := addFwd_invariant counts counts.length pi.a (pi.p + n) ha
  have hb := addBwd_invariant counts (addFwd counts counts.length pi.a (pi.p + n)).1
    (addFwd counts counts.length pi.a (pi.p + n)).2 hf.1
  refine ⟨hb.1, by unfold posOf; dsimp only; omega, ?_⟩
  simp only [decide_eq_true_eq]
  unfold validCursor
  dsimp only
  constructor
  · rintro ⟨u, v⟩
    exact ⟨hb.1, u, v⟩
  · rintro ⟨-, u, v⟩
    exact ⟨u, v⟩

/-! ## Page navigation: moveNPages

The manager state entering moveNPages is abstracted to the data the
function reads or writes: the page counts of the open archives, the current
cursor and the manga-mode flag.  openNextArchive and openPreviousArchive
look up a neighbor in the directory and open it; all of their failure modes
(last archive is a directory, no neighboring file) and the page count of
the archive they would open are abstracted into two oracle lists, one per
direction, consumed one archive per successful open.  Opening a previous
archive prepends it and shifts the cursors right by one, exactly as the Go
code increments them after prepending.  The openType argument only steers
extraction priority and is irrelevant to the cursor.  afterMove is outside
the modelled scope (it never moves the current cursor out of bounds: its
archive closing only drops archives strictly away from the cursor). -/

structure MState where
  counts : List Nat
  c : PageIndices
  mangaMode : Bool
  nextO : List Nat
  prevO : List Nat

def openNextArchive (st : MState) : Option MState :=
  match st.nextO with
  | [] => none
  | k :: rest => some { st with counts := st.counts ++ [k], nextO := rest }

def openPrevArchive (st : MState) : Option MState :=
  match st.prevO with
  | [] => none
  | k :: rest =>
    some { st with counts := k :: st.counts, c := ⟨st.c.a + 1, st.c.p⟩, prevO := rest }

/-- The clamp at the bottom of moveNPages (part_005 lines 57-62). -/
def clampFinal (counts : List Nat) (nc : PageIndices) : PageIndices :=
  let p1 := if pageCount counts nc.a ≤ nc.p then pageCount counts nc.a - 1 else nc.p
  ⟨nc.a, if p1 < 0 then 0 else p1⟩

/-- moveNPages (part_005 lines 11-66).  The mode computation
(preloading versus waitingOnFirst or waitingOnLast) is dropped because it
does not touch the cursor or the archive list. -/
def moveNPages (st : MState) (n : Int) : MState :=
  if n = 0 then st
  else
    let r := addPI st.counts st.c n
    if r.2 then
      let nc2 :=
        if ¬st.mangaMode ∧ r.1.a ≠ st.c.a then
          let p1 : Int := if r.1.a > st.c.a then pageCount st.counts st.c.a - 1 else 0
          (⟨st.c.a, if p1 < 0 then 0 else p1⟩ : PageIndices)
        else r.1
      { st with c := clampFinal st.counts nc2 }
    else if st.mangaMode then
      if n > 0 then
        match h : openNextArchive st with
        | some st2 => moveNPages st2 n
        | none => { st with c := clampFinal st.counts r.1 }
      else
        match h : openPrevArchive st with
        | some st2 => moveNPages st2 n
        | none => { st with c := clampFinal st.counts r.1 }
    else
      { st with c := clampFinal st.counts ⟨st.c.a, r.1.p⟩ }
termination_by st.nextO.length + st.prevO.length
decreasing_by
  · rcases st with ⟨counts, c, mm, nO, pO⟩
    cases nO with
    | nil => simp [openNextArchive] at h
    | cons k rest =>
      simp only [openNextArchive] at h
      injection h with h2
      subst h2
      simp
  · rcases st with ⟨counts, c, mm, nO, pO⟩
    cases pO with
    | nil => simp [openPrevArchive] at h
    | cons k rest =>
      simp only [openPrevArchive] at h
      injection h with h2
      subst h2
      simp

/-! ## Loadable image state machine, internal/manager/loadable-image.go

Images are modelled by their pixel bounds (a rectangle with zero origin,
so by its size point); a nil Go image is None.  Whether a decode succeeds
is an input of the operations that decode (the decodeRes argument).  Each
operation returns the updated image and a flag telling whether it started
a load attempt (a spawned asynchronous load or a synchronous decode);
operations that panic return none. -/

structure Pt where
  x : Int
  y : Int
deriving DecidableEq

def zeroPt : Pt := ⟨0, 0⟩

inductive LiState
  | unwritten
  | loadable
  | loading
  | loaded
  | failed
deriving DecidableEq

/-- The int8 value of the liState constant, for the ordered comparisons
in the source. -/
def LiState.code : LiState → Nat
  | .unwritten => 0
  | .loadable => 1
  | .loading => 2
  | .loaded => 3
  | .failed => 4

structure Msi where
  img : Option Pt
  originalBounds : Pt
  scaled : Bool
deriving DecidableEq

def zeroMsi : Msi := ⟨none, zeroPt, false⟩

structure LoadableImage where
  state : LiState
  msi : Msi
  targetSize : Pt
  /-- A MaybeScaledImage sitting unreceived in the buffered loadCh. -/
  pending : Option Msi
deriving DecidableEq

/-- CalculateImageBounds (loadable-image.go lines 815-830): fit the image
into the container, truncating to int.  The float64 expression
int(min(cx/ix, cy/iy) * i) is modelled by exact rational arithmetic
written with integer cross-multiplication and Int.div, which truncates
toward zero as the Go conversion does; for positive dimensions the
branch choice and both quotients equal the exact values of the Go
expression up to the final float64 roundings.  The only theorem below that
evaluates the scaling branch does so at (3000,2000) into (800,600), where
the float64 computation was checked by hand to round to exactly 800.0 and
533.33…, so the exact model and the Go code return the same (800, 533). -/
def calculateImageBounds (img : Pt) (size : Pt) : Pt :=
  if img.x > size.x ∨ img.y > size.y then
    if size.x * img.y ≤ size.y * img.x then
      ⟨(size.x * img.x).tdiv img.x, (size.x * img.y).tdiv img.x⟩
    else
      ⟨(size.y * img.x).tdiv img.y, (size.y * img.y).tdiv img.y⟩
  else ⟨img.x, img.y⟩

/-- MarkLoaded (lines 547-554). -/
def markLoaded (li : LoadableImage) (m : Msi) : LoadableImage :=
  { li with msi := m, state := if m.img = none then .failed else .loaded }

/-- unload (lines 563-584): no-ops on failed and unwritten images;
otherwise discards any buffered load result, detaches the in-flight load
(the replaced channels are not otherwise observable in this model) and
resets to loadable with an empty msi. -/
def unload (li : LoadableImage) : LoadableImage :=
  if li.state = .failed ∨ li.state = .unwritten then li
  else
    let li1 := if li.state = .loading then { li with pending := none } else li
    { li1 with state := .loadable, msi := zeroMsi }

/-- invalidateDownscaled (lines 586-611). -/
def invalidateDownscaled (sz : Pt) (li : LoadableImage) : LoadableImage :=
  if li.state.code ≤ LiState.loadable.code ∨ li.state = .failed then li
  else if li.targetSize = zeroPt then li
  else
    let li1 :=
      if li.state = .loading then
        match li.pending with
        | some m => markLoaded { li with pending := none } m
        | none => li
      else li
    let li2 := if li1.state = .loading ∧ li1.targetSize ≠ sz then unload li1 else li1
    if li2.state = .loaded ∧
        li2.msi.img.getD zeroPt ≠ calculateImageBounds li2.msi.originalBounds sz then
      unload li2
    else li2

/-- load (lines 692-701): swap the completion handle, mark loading, retain
the target size and spawn the worker. -/
def goLoad (sz : Pt) (li : LoadableImage) : LoadableImage :=
  { li with state := .loading, targetSize := sz }

/-- rescale (lines 672-679). -/
def rescale (sz : Pt) (orig : Option Pt) (li : LoadableImage) : LoadableImage × Bool :=
  if li.state ≠ .loaded ∨ orig = none then (li, false)
  else (goLoad sz li, true)

/-- maybeRescale (lines 613-634). -/
def maybeRescale (sz : Pt) (li : LoadableImage) : LoadableImage × Bool :=
  if sz = zeroPt then (li, false)
  else
    let li1 := invalidateDownscaled sz li
    if li1.state = .loading then (li1, false)
    else if li1.state ≠ .loaded then (li1, false)
    else if li1.state = .loaded ∧
        li1.msi.img.getD zeroPt = calculateImageBounds li1.msi.originalBounds sz then
      (li1, false)
    else rescale sz li1.msi.img li1

/-- Load (lines 682-690): panics unless the image is loadable. -/
def loadImage (sz : Pt) (li : LoadableImage) : Option (LoadableImage × Bool) :=
  if li.state ≠ .loadable then none
  else some (goLoad sz li, true)

/-- loadSyncUnscaled (lines 641-669).  decodeRes is the result of
loadImageFromFile on the backing file (None when opening or decoding
fails).  The second branch mirrors the source exactly: loaded or loading
returns immediately, which makes the following wait-on-loadCh branch
unreachable. -/
def loadSyncUnscaled (decodeRes : Option Pt) (li : LoadableImage) :
    Option (LoadableImage × Bool) :=
  if li.state = .unwritten then none
  else if li.state = .loaded ∨ li.state = .loading then some (li, false)
  else if li.state = .loading then
    some ({ li with msi := li.pending.getD zeroMsi, pending := none, state := .loaded },
      false)
  else
    let li1 := { li with targetSize := zeroPt, state := .loaded }
    match decodeRes with
    | some img => some ({ li1 with msi := ⟨some img, img, false⟩ }, true)
    | none => some ({ li1 with state := .failed }, true)

/-! ## Page upscale clearing, internal/manager/page.go

clearUpscale is modelled by the new page state plus a description of the
task it spawns: which files that task removes as a function of the boolean
it awaits on the old upscale channel, whether it marks the upscale image
loadable, and that it closes the fresh prevUpscale when done.
Delete on a loadable image panics unless the image is deletable; both the
normal and the upscaled images of an archive page are created with
deletable true, so Delete here is removeFile on the backing file. -/

inductive EiState
  | extracting
  | extracted
  | upscaling
  | upscaled
deriving DecidableEq

def EiState.code : EiState → Nat
  | .extracting => 0
  | .extracted => 1
  | .upscaling => 2
  | .upscaled => 3

structure PageM where
  state : EiState
  normalFile : String
  upscaleFile : String
deriving DecidableEq

structure ClearUpscaleResult where
  page : PageM
  /-- A cleanup task was spawned (and prevUpscale replaced). -/
  spawned : Bool
  /-- Files the spawned task removes, as a function of the boolean it
  receives from the old upscale channel (the upscaled branch ignores it). -/
  taskDeletes : Bool → List String
  /-- Whether the task marks the upscale image loadable. -/
  taskSetsUpscaleLoadable : Bool → Bool
  /-- The task closes the fresh prevUpscale channel when done. -/
  closesPrev : Bool

/-- clearUpscale (page.go lines 317-358). -/
def clearUpscale (p : PageM) : ClearUpscaleResult :=
  if p.state.code < EiState.upscaling.code then
    ⟨p, false, fun _ => [], fun _ => false, false⟩
  else if p.state = .upscaling then
    { page := { p with state := .extracted },
      spawned := true,
      taskDeletes := fun b => if b then [p.normalFile] else [],
      taskSetsUpscaleLoadable := fun b => b,
      closesPrev := true }
  else
    { page := { p with state := .extracted },
      spawned := true,
      taskDeletes := fun _ => [p.upscaleFile],
      taskSetsUpscaleLoadable := fun _ => false,
      closesPrev := true }

/-! ## Temp-file removal, page.go removeFile (lines 419-433)

The function receives the path already made absolute and cleaned by
filepath.Abs (a cleaned absolute path never ends in a separator unless it
is the root).  os.IsPathSeparator on unix holds exactly for the slash.
Indexing the remainder of TrimPrefix panics in Go when the remainder is
empty, and log.Panicln panics as well, so both misuse paths are a panic
before any removal. -/

inductive RemoveOutcome
  | removed
  | panicked
deriving DecidableEq

def hasPfx : List Char → List Char → Bool
  | [], _ => true
  | _ :: _, [] => false
  | x :: xs, y :: ys => x = y && hasPfx xs ys

def removeFile (tmpDir a : List Char) : RemoveOutcome :=
  if hasPfx tmpDir a then
    match a.drop tmpDir.length with
    | [] => .panicked
    | c :: _ => if c = '/' then .removed else .panicked
  else .panicked

/-- The path a lies strictly inside tmpDir: it extends it by a separator
and a non-empty relative remainder. -/
def strictlyInside (tmpDir a : List Char) : Prop :=
  ∃ rest, rest ≠ [] ∧ a = tmpDir ++ '/' :: rest

/-! ## Archive extraction channel protocol

part_006 openArchive lines 215-251 and part_007 archiverExtractor lines
37-93.  The goroutine runs an optional priority walk for the fast page,
then the full walk, and finally closes the channel of every page still in
the extraction map.  Per page we record the sequence of channel events:
booleans sent and the close.  A walk callback first checks the shutdown
and archive-closed signals; the walk parameter stop gives the callback
index from which that signal is visible (None for never).  fails tells
for which files the create, copy or file-close step fails; all three
failures produce the same channel events. -/

inductive ChEvent
  | write (b : Bool)
  | closeCh
deriving DecidableEq

structure ExtState where
  pending : List String
  trace : String → List ChEvent

/-- Send the success boolean and close the channel of page f, removing it
from the extraction map. -/
def emitTwo (st : ExtState) (f : String) (b : Bool) : ExtState :=
  { pending := st.pending.erase f,
    trace := fun q => if q = f then st.trace q ++ [.write b, .closeCh] else st.trace q }

/-- One walk with archiverExtractor: process files in order; stop when the
close signal is visible; with a target page skip all other files and stop
the walk once the target extracted successfully. -/
def runWalk (target : Option String) (fails : String → Bool) (stop : Option Nat) :
    List String → Nat → ExtState → ExtState
  | [], _, st => st
  | f :: rest, i, st =>
    if (match stop with | some j => decide (j ≤ i) | none => false) then st
    else if (match target with | some t => decide (f ≠ t) | none => false) then
      runWalk target fails stop rest (i + 1) st
    else if f ∈ st.pending then
      let st2 := emitTwo st f (!fails f)
      if target.isSome ∧ ¬fails f then st2
      else runWalk target fails stop rest (i + 1) st2
    else runWalk target fails stop rest (i + 1) st

/-- Close the channels of the pages still pending (the deferred loop of
the extraction goroutine). -/
def finalizeClose (st : ExtState) : String → List ChEvent :=
  fun q => if q ∈ st.pending then st.trace q ++ [.closeCh] else st.trace q

/-- Channel events per page over one archive open/close cycle: the
optional fast-page walk, the full walk, then the deferred close of the
remaining map entries. -/
def extractionTraces (files pages : List String) (target : Option String)
    (fails : String → Bool) (stop1 stop2 : Option Nat) : String → List ChEvent :=
  let st0 : ExtState := ⟨pages, fun _ => []⟩
  let st1 :=
    match target with
    | some _ => runWalk target fails stop1 files 0 st0
    | none => st0
  finalizeClose (runWalk none fails stop2 files 0 st1)

/-- Number of booleans written on a channel trace. -/
def countWrites (l : List ChEvent) : Nat :=
  l.countP fun e => match e with | .write _ => true | .closeCh => false

/-- Number of closes on a channel trace. -/
def countCloses (l : List ChEvent) : Nat :=
  l.countP fun e => match e with | .write _ => false | .closeCh => true

/-! ## Support lemmas -/

/-- A single attempt of mangaSyncerFileRegex never matches: the leading
anchor forces the start position to the end of the text, and the rest of
the pattern must then consume characters that do not exist. -/
lemma msMatchAt_none (s : List Char) (i : Nat) : msMatchAt s i = none := by
  unfold msMatchAt
  split
  · next h =>
    subst h
    rw [List.drop_length]
    rfl
  · rfl

lemma firstSome_none (f : Nat → Option (List Char)) (h : ∀ x, f x = none) :
    ∀ l, firstSome f l = none := by
  intro l
  induction l with
  | nil => rfl
  | cons x xs ih => simp [firstSome, h x, ih]

/-- mangaSyncerFileRegex matches no string at all. -/
lemma msFind_none (s : List Char) : msFind s = none :=
  firstSome_none _ (msMatchAt_none s) _

lemma hasPfx_iff (t a : List Char) : hasPfx t a = true ↔ ∃ r, a = t ++ r := by
  induction t generalizing a with
  | nil => simp [hasPfx]
  | cons x xs ih =>
    cases a with
    | nil =>
      simp only [hasPfx, List.cons_append]
      constructor
      · intro h; cases h
      · rintro ⟨r, h⟩; cases h
    | cons y ys =>
      simp only [hasPfx, Bool.and_eq_true, decide_eq_true_eq, ih]
      constructor
      · rintro ⟨rfl, r, rfl⟩
        exact ⟨r, rfl⟩
      · rintro ⟨r, h⟩
        injection h with h1 h2
        exact ⟨h1.symm, r, h2⟩

/-- Invariant carried through the extraction walks: the map is duplicate
free and contained in the page set, and the channel of every page either
still awaits events (page pending, trace empty) or already received one
boolean and the close. -/
def walkInv (pages : List String) (st : ExtState) : Prop :=
  st.pending.Nodup ∧ (∀ x ∈ st.pending, x ∈ pages) ∧
  ∀ p ∈ pages,
    (p ∈ st.pending ∧ st.trace p = []) ∨
    (p ∉ st.pending ∧
      (st.trace p = [.write true, .closeCh] ∨ st.trace p = [.write false, .closeCh]))

lemma emitTwo_inv (pages : List String) (st : ExtState) (f : String) (b : Bool)
    (hinv : walkInv pages st) (hf : f ∈ st.pending) :
    walkInv pages (emitTwo st f b) := by
  obtain ⟨hnd, hsub, hall⟩ := hinv
  refine ⟨hnd.erase f, fun x hx => hsub x (List.mem_of_mem_erase hx), ?_⟩
  intro p hp
  rcases hall p hp with ⟨hin, htr⟩ | ⟨hout, htr⟩
  · by_cases hpf : p = f
    · subst hpf
      right
      refine ⟨fun hc => ?_, ?_⟩
      · exact (List.Nodup.not_mem_erase hnd) hc
      · cases b <;> simp [emitTwo, htr]
    · left
      refine ⟨?_, ?_⟩
      · exact (List.mem_erase_of_ne hpf).mpr hin
      · simp [emitTwo, hpf, htr]
  · have hpf : p ≠ f := fun hc => hout (hc ▸ hf)
    right
    refine ⟨fun hc => hout (List.mem_of_mem_erase hc), ?_⟩
    simpa [emitTwo, hpf] using htr

lemma runWalk_inv (pages : List String) (target : Option String)
    (fails : String → Bool) (stop : Option Nat) :
    ∀ (files : List String) (i : Nat) (st : ExtState), walkInv pages st →
      walkInv pages (runWalk target fails stop files i st) := by
  intro files
  induction files with
  | nil => intro i st h; exact h
  | cons f rest ih =>
    intro i st h
    unfold runWalk
    split
    · exact h
    · split
      · exact ih (i + 1) st h
      · split
        · next hmem =>
          have h2 := emitTwo_inv pages st f (!fails f) h hmem
          split
          · exact h2
          · exact ih (i + 1) _ h2
        · exact ih (i + 1) st h

/-- The final clamp always produces a valid cursor for an in-bounds
archive index. -/
lemma clampFinal_valid (counts : List Nat) (nc : PageIndices)
    (ha : nc.a < counts.length) :
    validCursor counts (clampFinal counts nc) := by
  rcases nc with ⟨a, p⟩
  unfold clampFinal validCursor pageCount at *
  dsimp only
  refine ⟨ha, ?_⟩
  have hpc : (0 : Int) ≤ (counts.getD a 0 : Int) := Int.natCast_nonneg _
  split_ifs <;> omega

lemma openNext_valid {st st2 : MState} (h : openNextArchive st = some st2)
    (hv : validCursor st.counts st.c) : validCursor st2.counts st2.c := by
  rcases st with ⟨counts, c, mm, nO, pO⟩
  cases nO with
  | nil => simp [openNextArchive] at h
  | cons k rest =>
    simp only [openNextArchive] at h
    injection h with h2
    subst h2
    obtain ⟨h1, h2, h3⟩ := hv
    dsimp only at h1 h2 h3 ⊢
    refine ⟨by simpa using Nat.lt_succ_of_lt h1, h2, ?_⟩
    have hg : (counts ++ [k]).getD c.a 0 = counts.getD c.a 0 := by
      simp only [List.getD]
      rw [List.get?_eq_getElem?, List.get?_eq_getElem?, List.getElem?_append_left h1]
    unfold pageCount at h3 ⊢
    rw [hg]
    exact h3

lemma openPrev_valid {st st2 : MState} (h : openPrevArchive st = some st2)
    (hv : validCursor st.counts st.c) : validCursor st2.counts st2.c := by
  rcases st with ⟨counts, c, mm, nO, pO⟩
  cases pO with
  | nil => simp [openPrevArchive] at h
  | cons k rest =>
    simp only [openPrevArchive] at h
    injection h with h2
    subst h2
    obtain ⟨h1, h2, h3⟩ := hv
    exact ⟨by simpa using Nat.succ_lt_succ h1, h2, by simpa [pageCount] using h3⟩

/-! ## Claim theorems -/

/-- C3: the natural sorter orders z9.doc before z10.doc; z4.5.doc before
z4.7.doc before z4.75.doc; 16: before 16.5:; Ch. 1 before Ch. 10 before
Ch. 10.5; and the Latin capital K (U+004B) and the Kelvin sign (U+212A)
compare equal, neither being less than the other. -/
theorem C3_natsort_examples :
    natsortCompare "z9.doc" "z10.doc" = true ∧
    natsortCompare "z10.doc" "z9.doc" = false ∧
    natsortCompare "z4.5.doc" "z4.7.doc" = true ∧
    natsortCompare "z4.7.doc" "z4.5.doc" = false ∧
    natsortCompare "z4.7.doc" "z4.75.doc" = true ∧
    natsortCompare "z4.75.doc" "z4.7.doc" = false ∧
    natsortCompare "16:" "16.5:" = true ∧
    natsortCompare "16.5:" "16:" = false ∧
    natsortCompare "Ch. 1" "Ch. 10" = true ∧
    natsortCompare "Ch. 10" "Ch. 1" = false ∧
    natsortCompare "Ch. 10" "Ch. 10.5" = true ∧
    natsortCompare "Ch. 10.5" "Ch. 10" = false ∧
    natsortCompare "K" "K" = false ∧
    natsortCompare "K" "K" = false := by decide

/-- C4 (code bug): clearUpscale on a page whose upscale is in progress
spawns a task that, when the pending boolean resolves true, deletes the
NORMAL extracted file instead of the upscaled output, and marks the
upscale image loadable; the upscaled output stays on disk.  The page state
is reset to extracted and prevUpscale is closed as the claim says, but the
deletion target contradicts both the claim and the comment above cleanup
in page.go, which promises that the regular version is only cleared when
the archive is unloaded. -/
theorem C4_clearUpscale_inflight_deletes_normal :
    (clearUpscale ⟨.upscaling, "/tmp/aw/ch0/0.png", "/tmp/aw/ch0/up0.png"⟩).taskDeletes true
      = ["/tmp/aw/ch0/0.png"] ∧
    "/tmp/aw/ch0/up0.png" ∉
      (clearUpscale ⟨.upscaling, "/tmp/aw/ch0/0.png", "/tmp/aw/ch0/up0.png"⟩).taskDeletes true ∧
    (clearUpscale ⟨.upscaling, "/tmp/aw/ch0/0.png", "/tmp/aw/ch0/up0.png"⟩).taskSetsUpscaleLoadable true = true ∧
    (clearUpscale ⟨.upscaling, "/tmp/aw/ch0/0.png", "/tmp/aw/ch0/up0.png"⟩).page.state
      = .extracted ∧
    (clearUpscale ⟨.upscaling, "/tmp/aw/ch0/0.png", "/tmp/aw/ch0/up0.png"⟩).closesPrev
      = true := by decide

/-- C5 (code bug): the fallback regex of lessThan is anchored with the
end-of-text dollar instead of a caret, so it matches no string at all, and
the ordering falls through to the chunk-based facette natural sorter,
which puts Ch. 10.5.zip before Ch. 10.zip (the chunk dot compares below
the chunk .zip as strings).  In the directory holding exactly
Ch. 9.5.zip, Ch. 10.zip and Ch. 10.5.zip, the successor of Ch. 9.5.zip
returned by findBeforeAndAfterInDir is therefore Ch. 10.5.zip, not the
Ch. 10.zip the claim requires. -/
theorem C5_regex_dead_wrong_successor :
    (∀ s : List Char, msFind s = none) ∧
    findBeforeAndAfterInDir "Ch. 9.5.zip".data
      [("Ch. 10.5.zip".data, false), ("Ch. 10.zip".data, false), ("Ch. 9.5.zip".data, false)]
      = ([], "Ch. 10.5.zip".data) ∧
    "Ch. 10.5.zip".data ≠ "Ch. 10.zip".data :=
  ⟨msFind_none, by decide, by decide⟩

/-- C6 counterexample: invoked on an image whose asynchronous load is in
flight (state loading, a result already buffered on loadCh),
loadSyncUnscaled returns immediately without waiting: the state is still
loading, not loaded, and the buffered result is not attached. -/
theorem C6_counterexample :
    loadSyncUnscaled none
        ⟨.loading, zeroMsi, ⟨100, 100⟩, some ⟨some ⟨5, 5⟩, ⟨5, 5⟩, false⟩⟩
      = some (⟨.loading, zeroMsi, ⟨100, 100⟩, some ⟨some ⟨5, 5⟩, ⟨5, 5⟩, false⟩⟩, false) ∧
    LiState.loading ≠ LiState.loaded := by decide

/-- C6 amended: if an asynchronous load is in flight (state loading),
loadSyncUnscaled returns immediately without waiting and without touching
the image (the branch that would wait on the load channel is unreachable,
as the source comment says: it loads synchronously unless the image was
already being loaded normally); if no load is in flight and the image is
loadable, it decodes synchronously at natural size (target size zero,
unscaled result) and sets the state to loaded. -/
theorem C6_loadSyncUnscaled_behavior (li : LoadableImage) (d : Option Pt) :
    (li.state = .loading → loadSyncUnscaled d li = some (li, false)) ∧
    (li.state = .loadable → ∀ img : Pt, loadSyncUnscaled (some img) li
      = some ({ li with state := .loaded, targetSize := zeroPt, msi := ⟨some img, img, false⟩ },
          true)) := by
  constructor
  · intro h
    simp [loadSyncUnscaled, h]
  · intro h img
    simp [loadSyncUnscaled, h]

/-- Witness for C6: the amended theorem applied to a concrete loading
image. -/
theorem C6_loadSyncUnscaled_behavior_witness :
    loadSyncUnscaled none (⟨.loading, zeroMsi, zeroPt, none⟩ : LoadableImage)
      = some (⟨.loading, zeroMsi, zeroPt, none⟩, false) :=
  (C6_loadSyncUnscaled_behavior ⟨.loading, zeroMsi, zeroPt, none⟩ none).1 rfl

/-- C7 counterexample: CalculateImageBounds fits (3000, 2000) into
(800, 600) as (800, 533), not the (900, 600) the claim states (which does
not even fit inside the container width). -/
theorem C7_counterexample :
    calculateImageBounds ⟨3000, 2000⟩ ⟨800, 600⟩ = ⟨800, 533⟩ ∧
    (⟨800, 533⟩ : Pt) ≠ ⟨900, 600⟩ := by decide

/-- C7 amended: CalculateImageBounds applied to an image of size
(3000, 2000) and a container of size (800, 600) returns (800, 533) with
integer truncation, and for every image size already fitting the
container it returns the size unchanged. -/
theorem C7_fit_math :
    calculateImageBounds ⟨3000, 2000⟩ ⟨800, 600⟩ = ⟨800, 533⟩ ∧
    ∀ ix iy cx cy : Int, ix ≤ cx → iy ≤ cy →
      calculateImageBounds ⟨ix, iy⟩ ⟨cx, cy⟩ = ⟨ix, iy⟩ := by
  refine ⟨by decide, ?_⟩
  intro ix iy cx cy h1 h2
  unfold calculateImageBounds
  rw [if_neg]
  dsimp only
  omega

/-- Witness for C7: the no-scaling case at a concrete input. -/
theorem C7_fit_math_witness :
    calculateImageBounds ⟨5, 4⟩ ⟨10, 6⟩ = ⟨5, 4⟩ :=
  C7_fit_math.2 5 4 10 6 (by decide) (by decide)

/-- C8 counterexample: on an image whose decode already failed,
loadSyncUnscaled is not a no-op: it re-attempts a synchronous decode (the
returned flag records that loadImageFromFile ran).  With the on-disk file
unchanged the decode fails again and the state ends failed, but a load
attempt was started, contradicting the claim that no listed operation
starts one. -/
theorem C8_counterexample :
    loadSyncUnscaled none (⟨.failed, zeroMsi, zeroPt, none⟩ : LoadableImage)
      = some (⟨.failed, zeroMsi, zeroPt, none⟩, true) := by decide

/-- C8 amended: once a decode has failed and while the on-disk file is
unchanged, unload, invalidateDownscaled and maybeRescale leave the image
untouched and start nothing, and Load panics; loadSyncUnscaled however
does re-attempt a synchronous decode, which with the unchanged file fails
again, leaving the state failed (only the retained target size is
zeroed). -/
theorem C8_failed_is_final (li : LoadableImage) (sz : Pt) (h : li.state = .failed) :
    unload li = li ∧
    invalidateDownscaled sz li = li ∧
    maybeRescale sz li = (li, false) ∧
    loadImage sz li = none ∧
    loadSyncUnscaled none li = some ({ li with targetSize := zeroPt, state := .failed }, true) := by
  have hu : unload li = li := by simp [unload, h]
  have hi : invalidateDownscaled sz li = li := by simp [invalidateDownscaled, h]
  refine ⟨hu, hi, ?_, ?_, ?_⟩
  · unfold maybeRescale
    split
    · rfl
    · rw [hi]
      simp [h]
  · simp [loadImage, h]
  · simp [loadSyncUnscaled, h]

/-- Witness for C8: the amended theorem applied to a concrete failed
image. -/
theorem C8_failed_is_final_witness :
    unload (⟨.failed, zeroMsi, ⟨3, 3⟩, none⟩ : LoadableImage)
      = ⟨.failed, zeroMsi, ⟨3, 3⟩, none⟩ :=
  (C8_failed_is_final ⟨.failed, zeroMsi, ⟨3, 3⟩, none⟩ ⟨1, 1⟩ rfl).1

/-- C10: removeFile removes its argument exactly when the absolute path
lies strictly inside the configured temporary directory, that is, extends
it by a separator and a non-empty remainder; on every other path it
panics without removing anything.  The hypothesis excludes the one
non-cleaned shape (the temp directory plus a bare trailing separator)
which filepath.Abs can never produce for a non-empty temp directory. -/
theorem C10_removeFile_safe (tmpDir a : List Char) (hclean : a ≠ tmpDir ++ ['/']) :
    (removeFile tmpDir a = .removed ↔ strictlyInside tmpDir a) ∧
    (¬ strictlyInside tmpDir a → removeFile tmpDir a = .panicked) := by
  have main : removeFile tmpDir a = .removed ↔ strictlyInside tmpDir a := by
    constructor
    · intro h
      unfold removeFile at h
      by_cases hp : hasPfx tmpDir a = true
      · rw [if_pos hp] at h
        obtain ⟨r, hr⟩ := (hasPfx_iff tmpDir a).mp hp
        subst hr
        rw [List.drop_left] at h
        cases r with
        | nil => cases h
        | cons c rs =>
          have h2 : (if c = '/' then RemoveOutcome.removed else RemoveOutcome.panicked)
              = RemoveOutcome.removed := h
          by_cases hc : c = '/'
          · subst hc
            refine ⟨rs, ?_, rfl⟩
            intro hnil
            subst hnil
            exact hclean rfl
          · rw [if_neg hc] at h2
            cases h2
      · rw [if_neg hp] at h
        cases h
    · rintro ⟨rest, hne, rfl⟩
      have hp : hasPfx tmpDir (tmpDir ++ '/' :: rest) = true :=
        (hasPfx_iff _ _).mpr ⟨'/' :: rest, rfl⟩
      unfold removeFile
      rw [if_pos hp, List.drop_left]
      simp
  refine ⟨main, fun hn => ?_⟩
  cases hrf : removeFile tmpDir a with
  | removed => exact absurd (main.mp hrf) hn
  | panicked => rfl

/-- Witness for C10: a path strictly inside the temp directory is
removed. -/
theorem C10_removeFile_safe_witness :
    removeFile "/tmp/aw".data "/tmp/aw/ch0/0.png".data = .removed :=
  ((C10_removeFile_safe "/tmp/aw".data "/tmp/aw/ch0/0.png".data (by decide)).1).mpr
    ⟨"ch0/0.png".data, by decide, by decide⟩

lemma finalize_shapes (pages : List String) (st : ExtState) (hinv : walkInv pages st)
    (p : String) (hp : p ∈ pages) :
    finalizeClose st p = [.write true, .closeCh] ∨
    finalizeClose st p = [.write false, .closeCh] ∨
    finalizeClose st p = [.closeCh] := by
  rcases hinv.2.2 p hp with ⟨hin, htr⟩ | ⟨hout, htr⟩
  · right; right; simp [finalizeClose, hin, htr]
  · rcases htr with h | h
    · left; simp [finalizeClose, hout, h]
    · right; left; simp [finalizeClose, hout, h]

/-- C2 counterexample: when the archive is closed before the extractor
walk reaches a page (the walk observes the stop signal at its first
callback), the channel of that page is closed without any boolean being
written first, so the claim that exactly one boolean is written to every
channel fails on the teardown path.  (A reader of the closed channel still
observes false, by the closed-channel semantics of Go receives.) -/
theorem C2_counterexample :
    extractionTraces ["a"] ["a"] none (fun _ => false) none (some 0) "a"
      = [ChEvent.closeCh] ∧
    countWrites [ChEvent.closeCh] = 0 ∧
    countCloses [ChEvent.closeCh] = 1 := by decide

/-- C2 amended: over any archive open/close cycle, the extract channel of
every page of the archive is closed exactly once, and at most one boolean
is written to it, immediately before its close: true when its extraction
succeeded, false when the per-page create, copy or file-close step failed,
and nothing at all (only the close) when the page was still unprocessed at
teardown or missing from the archive. -/
theorem C2_extract_channel (files pages : List String) (target : Option String)
    (fails : String → Bool) (stop1 stop2 : Option Nat) (hnd : pages.Nodup)
    (p : String) (hp : p ∈ pages) :
    extractionTraces files pages target fails stop1 stop2 p = [.write true, .closeCh] ∨
    extractionTraces files pages target fails stop1 stop2 p = [.write false, .closeCh] ∨
    extractionTraces files pages target fails stop1 stop2 p = [.closeCh] := by
  have hinv0 : walkInv pages ⟨pages, fun _ => []⟩ :=
    ⟨hnd, fun _ hx => hx, fun q hq => Or.inl ⟨hq, rfl⟩⟩
  have hinv1 : walkInv pages (match target with
      | some _ => runWalk target fails stop1 files 0 ⟨pages, fun _ => []⟩
      | none => (⟨pages, fun _ => []⟩ : ExtState)) := by
    cases target with
    | none => exact hinv0
    | some t => exact runWalk_inv pages (some t) fails stop1 files 0 _ hinv0
  have hinv2 := runWalk_inv pages none fails stop2 files 0 _ hinv1
  exact finalize_shapes pages _ hinv2 p hp

/-- Witness for C2: the amended theorem applied to a concrete two-page
cycle. -/
theorem C2_extract_channel_witness :
    extractionTraces ["a", "b"] ["a", "b"] none (fun _ => false) none none "a"
        = [ChEvent.write true, .closeCh] ∨
    extractionTraces ["a", "b"] ["a", "b"] none (fun _ => false) none none "a"
        = [ChEvent.write false, .closeCh] ∨
    extractionTraces ["a", "b"] ["a", "b"] none (fun _ => false) none none "a"
        = [ChEvent.closeCh] :=
  C2_extract_channel ["a", "b"] ["a", "b"] none (fun _ => false) none none
    (by decide) "a" (by decide)

/-- C1 counterexample: the claim constrains only the archive component of
the starting cursor.  With page counts [5, 5], the cursor (0, 7) has a
valid archive index; add normalises it, so add((0,7), +1) = ((1,3), true)
and every intermediate cursor of the move (the results of add by 0 and by
1) is valid, yet add((1,3), -1) = ((1,2), true) does not return (0, 7). -/
theorem C1_counterexample :
    (addPI [5, 5] ⟨0, 7⟩ 0).2 = true ∧
    (addPI [5, 5] ⟨0, 7⟩ 1).2 = true ∧
    addPI [5, 5] ⟨0, 7⟩ 1 = (⟨1, 3⟩, true) ∧
    addPI [5, 5] ⟨1, 3⟩ (-1) = (⟨1, 2⟩, true) ∧
    (⟨1, 2⟩ : PageIndices) ≠ ⟨0, 7⟩ := by decide

/-- C1 amended: for every VALID cursor pi (archive index in range and page
component denoting a slot of that archive, an empty archive counting as
the single virtual slot zero) and every integer n, if add(pi, n) yields a
cursor with the validity flag true and all intermediate cursors are valid,
then add back by -n returns exactly (pi, true).  Empty archives do not
break the round trip. -/
theorem C1_add_roundtrip (counts : List Nat) (pi : PageIndices) (n : Int)
    (hv : validCursor counts pi)
    (hint : ∀ k : Nat, (k : Int) ≤ |n| → (addPI counts pi (n.sign * k)).2 = true) :
    addPI counts (addPI counts pi n).1 (-n) = (pi, true) := by
  have ha : pi.a < counts.length := hv.1
  have hflag : (addPI counts pi n).2 = true := by
    have h1 := hint n.natAbs (Int.abs_eq_natAbs n).ge
    rwa [Int.sign_mul_natAbs] at h1
  obtain ⟨hqa, hqpos, hqiff⟩ := addPI_spec counts pi n ha
  have hqv : validCursor counts (addPI counts pi n).1 := hqiff.mp hflag
  obtain ⟨hp0, hptot⟩ := valid_pos_lt_total counts pi hv
  have h0 : 0 ≤ posOf counts (addPI counts pi n).1 + (-n) := by omega
  have h1 : posOf counts (addPI counts pi n).1 + (-n) < (totalW counts : Int) := by omega
  obtain ⟨hrv, hrpos, hrflag⟩ := addPI_inrange counts (addPI counts pi n).1 (-n) hqa h0 h1
  have hr1 : (addPI counts (addPI counts pi n).1 (-n)).1 = pi := by
    apply valid_pos_inj counts _ pi hrv hv
    omega
  have hsplit : addPI counts (addPI counts pi n).1 (-n)
      = ((addPI counts (addPI counts pi n).1 (-n)).1,
         (addPI counts (addPI counts pi n).1 (-n)).2) := rfl
  rw [hsplit, hr1, hrflag]

/-- Witness for C1: a round trip across an empty archive, from the valid
cursor (0, 1) of page counts [2, 0, 3] by three pages and back. -/
theorem C1_add_roundtrip_witness :
    addPI [2, 0, 3] (addPI [2, 0, 3] ⟨0, 1⟩ 3).1 (-3) = (⟨0, 1⟩, true) := by
  apply C1_add_roundtrip
  · exact (by decide : validCursor [2, 0, 3] ⟨0, 1⟩)
  · intro k hk
    have habs : |(3 : Int)| = 3 := by decide
    rw [habs] at hk
    have hk3 : k ≤ 3 := by exact_mod_cast hk
    interval_cases k <;> decide

lemma openNext_measure {st st2 : MState} (h : openNextArchive st = some st2) :
    st2.nextO.length + st2.prevO.length < st.nextO.length + st.prevO.length := by
  rcases st with ⟨counts, c, mm, nO, pO⟩
  cases nO with
  | nil => simp [openNextArchive] at h
  | cons k rest =>
    simp only [openNextArchive] at h
    injection h with h2
    subst h2
    simp

lemma openPrev_measure {st st2 : MState} (h : openPrevArchive st = some st2) :
    st2.nextO.length + st2.prevO.length < st.nextO.length + st.prevO.length := by
  rcases st with ⟨counts, c, mm, nO, pO⟩
  cases pO with
  | nil => simp [openPrevArchive] at h
  | cons k rest =>
    simp only [openPrevArchive] at h
    injection h with h2
    subst h2
    simp

/-- C9: after any navigation handled by moveNPages, from a well-formed
manager state (current cursor valid), the current cursor is valid again:
its archive index indexes the archive list and its page component lies in
[0, PageCount-1] of that archive, or is 0 when that archive is empty —
including when manga mode recursively opens neighboring archives. -/
theorem C9_moveNPages_valid (st : MState) (n : Int)
    (hv : validCursor st.counts st.c) :
    validCursor (moveNPages st n).counts (moveNPages st n).c := by
  generalize hm : st.nextO.length + st.prevO.length = m
  induction m using Nat.strong_induction_on generalizing st with
  | _ m ih =>
    subst hm
    rw [moveNPages.eq_def]
    dsimp only
    split
    · exact hv
    · split
      · split
        · exact clampFinal_valid _ _ hv.1
        · exact clampFinal_valid _ _ (addPI_spec st.counts st.c n hv.1).1
      · split
        · split
          · split
            · next st2 heq =>
              exact ih _ (openNext_measure heq) st2 (openNext_valid heq hv) rfl
            · exact clampFinal_valid _ _ (addPI_spec st.counts st.c n hv.1).1
          · split
            · next st2 heq =>
              exact ih _ (openPrev_measure heq) st2 (openPrev_valid heq hv) rfl
            · exact clampFinal_valid _ _ (addPI_spec st.counts st.c n hv.1).1
        · exact clampFinal_valid _ _ hv.1

/-- Witness for C9: a five-page jump in a three-page single archive ends
on a valid cursor. -/
theorem C9_moveNPages_valid_witness :
    validCursor (moveNPages ⟨[3], ⟨0, 0⟩, false, [], []⟩ 5).counts
      (moveNPages ⟨[3], ⟨0, 0⟩, false, [], []⟩ 5).c :=
  C9_moveNPages_valid ⟨[3], ⟨0, 0⟩, false, [], []⟩ 5 (by decide)

end AwMan
